import Mathlib

/-!
Verification of the pdf_chunker repository against its specification.

The four Python scripts (pdf_chunker.py, consolidate_analysis.py,
gemini_analyzer.py, pdf_table_analyzer.py) are shallowly embedded below.
Python strings are modelled as `List Char`; the generative API and the
wall clock are modelled by an oracle of per-call outcomes together with an
explicit event trace recording calls and 65-second sleeps; fallible
operations return `Option`.
-/

/-- Python-style strings are modelled as lists of characters. -/
abbrev PyStr := List Char

/-- Characters treated as whitespace by Python's `str.strip()` and by the
regex class `\s` in the ASCII range: space, tab, newline, carriage return,
vertical tab (11), form feed (12). -/
def isSpaceC (c : Char) : Bool :=
  c == ' ' || c == '\t' || c == '\n' || c == '\r' || c == Char.ofNat 11 || c == Char.ofNat 12

/-- Remove trailing characters satisfying `p` (helper for `strip`). -/
def dropTrail (p : Char → Bool) (l : PyStr) : PyStr :=
  (l.reverse.dropWhile p).reverse

/-- Python `str.strip()`: remove leading and trailing whitespace. -/
def strip (l : PyStr) : PyStr :=
  dropTrail isSpaceC (l.dropWhile isSpaceC)

/-! ## pdf_chunker.py -/

/-- One chunk object produced by `split_text_into_chunks`
(src/pdf_chunker.py): a 1-based id and the window's text. -/
structure Chunk where
  chunk_id : Nat
  text : PyStr
deriving DecidableEq

/-- Fuel-indexed embedding of the `while start_index < len(text)` loop of
`split_text_into_chunks` (src/pdf_chunker.py, lines 66-81).  Each iteration
emits `text[start : start + chunk_size]` and advances `start` by
`chunk_size - chunk_overlap`.  `none` means the fuel ran out, i.e. the loop
did not terminate within the given number of iterations. -/
def splitGo (t : PyStr) (chunk_size chunk_overlap : Nat) :
    Nat → Nat → Nat → Option (List Chunk)
  | 0, _, _ => none
  | fuel + 1, start, cid =>
    if start < t.length then
      match splitGo t chunk_size chunk_overlap fuel
          (start + (chunk_size - chunk_overlap)) (cid + 1) with
      | none => none
      | some rest => some ({ chunk_id := cid, text := (t.drop start).take chunk_size } :: rest)
    else
      some []

/-- `split_text_into_chunks` (src/pdf_chunker.py, lines 48-84), run with
fuel `length + 1`: enough iterations for any terminating run, so a `none`
result signals non-termination of the source loop within that bound. -/
def split_text_into_chunks (t : PyStr) (chunk_size chunk_overlap : Nat) :
    Option (List Chunk) :=
  if t.isEmpty then some [] else splitGo t chunk_size chunk_overlap (t.length + 1) 0 1

/-- Closed-form description of the chunk list produced by the loop,
defined by well-founded recursion on the remaining text. -/
def chunkList (t : PyStr) (W O : Nat) (start cid : Nat) : List Chunk :=
  if h : start < t.length ∧ O < W then
    { chunk_id := cid, text := (t.drop start).take W } :: chunkList t W O (start + (W - O)) (cid + 1)
  else []
termination_by t.length - start
decreasing_by
  omega

/-- Two windows share exactly `O` characters of overlap: both have at least
`O` characters and the `O`-suffix of the first equals the `O`-prefix of the
second. -/
def sharesOverlap (O : Nat) (a b : PyStr) : Prop :=
  O ≤ a.length ∧ O ≤ b.length ∧ a.drop (a.length - O) = b.take O

instance (O : Nat) (a b : PyStr) : Decidable (sharesOverlap O a b) := by
  unfold sharesOverlap
  infer_instance

/-- The overlap relation between consecutive chunks, conditional on the
earlier chunk having full window length. -/
def chunkR (W O : Nat) (a b : Chunk) : Prop :=
  a.text.length = W → sharesOverlap O a.text b.text

/-- Concatenate the first window with every subsequent window minus its
first `O` characters. -/
def reconstruct (O : Nat) : List Chunk → PyStr
  | [] => []
  | c :: rest => c.text ++ (rest.map (fun d => d.text.drop O)).flatten

/-! ## consolidate_analysis.py -/

/-- Characters kept by the substitution `re.sub(r"[^\w\s']", '', s)` in
`cleanse_name`: word characters (letters, digits, underscore), whitespace,
and the apostrophe (code point 39). -/
def isAllowedC (c : Char) : Bool :=
  c.isAlphanum || c == '_' || isSpaceC c || c == Char.ofNat 39

/-- Worker for `collapseSpaces`: `prevSpace` records whether the previous
character belonged to a whitespace run that has already been replaced by
one space. -/
def collapseAux : Bool → PyStr → PyStr
  | _, [] => []
  | prevSpace, c :: rest =>
    if isSpaceC c then
      if prevSpace then collapseAux true rest
      else ' ' :: collapseAux true rest
    else c :: collapseAux false rest

/-- The substitution `re.sub(r'\s+', ' ', s)` in `cleanse_name`: replace
every maximal run of whitespace with a single space. -/
def collapseSpaces (l : PyStr) : PyStr := collapseAux false l

/-- The ordered honorific suffix list of `cleanse_name`
(src/consolidate_analysis.py, line 43). -/
def suffixes_to_remove : List PyStr :=
  [(" iii").toList, (" iv").toList, (" ii").toList, (" jr").toList, (" sr").toList, (" v").toList]

/-- The suffix-stripping loop of `cleanse_name`: remove the first matching
suffix from the fixed list, then `strip`; the Python loop breaks after the
first match, so at most one suffix is removed. -/
def stripSuffix1 (l : PyStr) : PyStr :=
  match suffixes_to_remove.find? (fun suf => suf.isSuffixOf l) with
  | some suf => strip (l.take (l.length - suf.length))
  | none => l

/-- `cleanse_name` (src/consolidate_analysis.py, lines 34-51): lowercase
(ASCII `str.lower()`, modelled by core `Char.toLower`), strip one honorific
suffix, drop characters outside `[\w\s']`, collapse whitespace runs, and
strip the ends.  The `isinstance` guard is outside the model: inputs are
always strings here. -/
def cleanse_name (name : PyStr) : PyStr :=
  strip (collapseSpaces ((stripSuffix1 (name.map Char.toLower)).filter isAllowedC))

/-- The manual alias table `PLAYER_NAME_ALIASES`
(src/consolidate_analysis.py, lines 26-31). -/
def PLAYER_NAME_ALIASES : List (PyStr × PyStr) :=
  [((("cam ward").toList), (("cameron ward").toList)),
    ((("horace bru mccoy").toList), (("bru mccoy").toList))]

/-- The final lookup key computed inside `create_analysis_lookup`
(lines 104-113): the alias-table image of the cleansed name when present,
otherwise the cleansed name itself. -/
def finalKey (nm : PyStr) : PyStr :=
  match PLAYER_NAME_ALIASES.find? (fun p => p.1 == cleanse_name nm) with
  | some p => p.2
  | none => cleanse_name nm

/-- One record read from an analysis file: `item.get("player_name")` and
`item.get("analysis")` may each be absent/None (here `none`) or a string. -/
structure Item where
  player_name : Option PyStr
  analysis : Option PyStr
deriving DecidableEq

/-- Python truthiness of an optional string: `None` and the empty string
are falsy. -/
def truthy : Option PyStr → Bool
  | none => false
  | some l => !l.isEmpty

/-- Python dict assignment `d[k] = v`: replace the value in place if the
key exists, otherwise append a new entry (insertion order preserved). -/
def dinsert (m : List (PyStr × PyStr)) (k v : PyStr) : List (PyStr × PyStr) :=
  if m.any (fun p => p.1 == k) then m.map (fun p => if p.1 == k then (p.1, v) else p)
  else m ++ [(k, v)]

/-- Python dict lookup: the value of the first entry with key `k` (keys
are unique in a dict, so the first entry is the only one). -/
def dlookup : List (PyStr × PyStr) → PyStr → Option PyStr
  | [], _ => none
  | p :: rest, k => if p.1 == k then some p.2 else dlookup rest k

/-- The body of the `for item in player_analyses` loop of
`create_analysis_lookup` (lines 98-115). -/
def lstep (m : List (PyStr × PyStr)) (item : Item) : List (PyStr × PyStr) :=
  if truthy item.player_name && truthy item.analysis then
    dinsert m (finalKey (item.player_name.getD [])) (item.analysis.getD [])
  else m

/-- `create_analysis_lookup` (src/consolidate_analysis.py, lines 90-118):
fold the loop body over the records, starting from the empty dict. -/
def create_analysis_lookup (player_analyses : List Item) : List (PyStr × PyStr) :=
  player_analyses.foldl lstep []

/-- A record contributes an entry under key `k` when both fields are
truthy and its final key is `k`. -/
def contributes (item : Item) (k : PyStr) : Bool :=
  truthy item.player_name && truthy item.analysis && (finalKey (item.player_name.getD []) == k)

/-- The analysis of the last record contributing to key `k`. -/
def lastContrib (k : PyStr) : List Item → Option PyStr
  | [] => none
  | item :: rest =>
    match lastContrib k rest with
    | some v => some v
    | none => if contributes item k then some (item.analysis.getD []) else none

/-- No two adjacent whitespace characters. -/
def NTS (a b : Char) : Prop := isSpaceC a = true → isSpaceC b = false

/-- Every key occurs at most once in the dict. -/
def KInv (m : List (PyStr × PyStr)) : Prop :=
  ∀ k, m.countP (fun p => p.1 == k) ≤ 1

/-! ## gemini_analyzer.py: header-delimited splitting -/

/-- One regex match inside `t`: start position, positive length, and the
text captured by the pattern's group.  Matches of `PLAYER_HEADER_REGEX`
are never empty (the pattern contains literal text) and lie inside the
text, so both facts are carried in the type. -/
structure ReMatch (t : PyStr) where
  ms : Nat
  ml : Nat
  cap : PyStr
  hpos : 0 < ml
  hle : ms + ml ≤ t.length

/-- A matcher returning the leftmost match of the compiled pattern in a
string, or `none`.  Modelled from the spec: the `re` module is an external
library, represented by this function together with the `LeftmostFinder`
contract. -/
abbrev Finder := (u : PyStr) → Option (ReMatch u)

/-- `re.split` with one capturing group (src/gemini_analyzer.py, line 63):
produces `[intro, name1, content1, name2, content2, ...]`. -/
def reSplit (find : Finder) (t : PyStr) : List PyStr :=
  match find t with
  | none => [t]
  | some m => t.take m.ms :: m.cap :: reSplit find (t.drop (m.ms + m.ml))
termination_by t.length
decreasing_by
  have h1 := m.hpos
  have h2 := m.hle
  simp only [List.length_drop]
  omega

/-- One player profile produced by `split_text_by_player`. -/
structure PProfile where
  player_name : PyStr
  text : PyStr
deriving DecidableEq

/-- The `for i in range(1, len(parts), 2)` loop of `split_text_by_player`
(lines 69-82), consuming name/content pairs; the one-element case mirrors
the dead `else` branch for a last player without content. -/
def buildProfiles : List PyStr → List PProfile
  | [] => []
  | [nm] => [⟨strip nm, []⟩]
  | nm :: ct :: rest => ⟨strip nm, strip ct⟩ :: buildProfiles rest

/-- `split_text_by_player` (src/gemini_analyzer.py, lines 53-86). -/
def split_text_by_player (find : Finder) (t : PyStr) : List PProfile :=
  let parts := reSplit find t
  if parts.length > 1 then buildProfiles (parts.drop 1) else []

/-- Number of non-overlapping matches found by the left-to-right scan. -/
def countMatches (find : Finder) (t : PyStr) : Nat :=
  match find t with
  | none => 0
  | some m => countMatches find (t.drop (m.ms + m.ml)) + 1
termination_by t.length
decreasing_by
  have h1 := m.hpos
  have h2 := m.hle
  simp only [List.length_drop]
  omega

/-- The profiles obtained after the first header: the text before the
first match does not occur here, only the captured name and the suffix of
the text after that match. -/
def profilesFrom (find : Finder) (cap : PyStr) (t : PyStr) : List PProfile :=
  match find t with
  | none => [⟨strip cap, strip t⟩]
  | some m => ⟨strip cap, strip (t.take m.ms)⟩ :: profilesFrom find m.cap (t.drop (m.ms + m.ml))
termination_by t.length
decreasing_by
  have h1 := m.hpos
  have h2 := m.hle
  simp only [List.length_drop]
  omega

/-- `b` contains an occurrence of the match language `M`: a non-empty
infix of `b` belongs to `M`. -/
def HasOcc (M : PyStr → Prop) (b : PyStr) : Prop :=
  ∃ v, v ≠ [] ∧ v <:+: b ∧ M v

/-- Contract of a leftmost matcher for match language `M` (the set of
strings matched by the pattern, which for a lookaround-free pattern such
as PLAYER_HEADER_REGEX is independent of context): a reported match is
leftmost, so no occurrence fits strictly before it, and `none` means the
string holds no occurrence at all. -/
structure LeftmostFinder (M : PyStr → Prop) (find : Finder) : Prop where
  sound_some : ∀ (t : PyStr) (m : ReMatch t), find t = some m → ¬ HasOcc M (t.take m.ms)
  sound_none : ∀ t : PyStr, find t = none → ¬ HasOcc M t

/-- Concrete single-character match language, for the witness. -/
def MH : PyStr → Prop := fun v => v = [('H' : Char)]

/-- Concrete leftmost matcher for `MH`, for the witness. -/
def findH (t : PyStr) : Option (ReMatch t) :=
  if h : t.findIdx (fun c => c == 'H') < t.length then
    some ⟨t.findIdx (fun c => c == 'H'), 1, [('H' : Char)], Nat.one_pos, by omega⟩
  else none

/-! ## gemini_analyzer.py: the annotation loop -/

/-- Outcome of one `model.generate_content` call: a response text, a
rate-limit error (`ResourceExhausted`) with its message, or any other
exception with its message. -/
inductive Outcome where
  | success (txt : PyStr)
  | rateLimit (msg : PyStr)
  | otherError (msg : PyStr)
deriving DecidableEq

/-- Observable events of a run: an API call that returned (`callOk`) or
raised (`callErr`), the 65-second sleep of the rate-limit handler, and the
proactive 65-second sleep of the every-14th-call throttle. -/
inductive Ev where
  | callOk
  | callErr
  | sleepRL
  | sleepPro
deriving DecidableEq

/-- The API is modelled as an oracle giving the outcome of the n-th call
of the run. -/
abbrev Oracle := Nat → Outcome

/-- The error text recorded when the retry after a rate limit fails. -/
def errAfterRetry (m : PyStr) : PyStr := ("Error after retry: ").toList ++ m

/-- The error text recorded for a non-rate-limit error. -/
def errDuring (m : PyStr) : PyStr := ("Error during analysis: ").toList ++ m

/-- One output record of `analyze_players_with_gemini`: the profile fields
with the attached analysis, plus the observable events of this unit. -/
structure URec where
  player_name : PyStr
  text : PyStr
  analysis : PyStr
  events : List Ev
deriving DecidableEq

/-- Result of processing one profile: its record and the next call index
and `request_count`. -/
structure StepOut where
  urec : URec
  ci : Nat
  rc : Nat
deriving DecidableEq

/-- Body of the `for i, profile` loop of `analyze_players_with_gemini`
(src/gemini_analyzer.py, lines 110-140): `ci` indexes the next API call,
`rc` is `request_count`, `isLast` tells whether this is the final profile.
A successful first attempt increments `request_count` and, when the new
count is a multiple of 14 and the profile is not the last, sleeps 65 s.
A rate-limited first attempt sleeps 65 s and retries once; the retry
neither increments `request_count` nor runs the throttle check, and a
failed retry records `Error after retry`.  Any other error records
`Error during analysis`. -/
def stepP (oracle : Oracle) (p : PProfile) (isLast : Bool) (ci rc : Nat) : StepOut :=
  match oracle ci with
  | Outcome.success t =>
    ⟨⟨p.player_name, p.text, t,
      if (rc + 1) % 14 = 0 ∧ isLast = false then [Ev.callOk, Ev.sleepPro] else [Ev.callOk]⟩,
      ci + 1, rc + 1⟩
  | Outcome.rateLimit _ =>
    match oracle (ci + 1) with
    | Outcome.success t =>
      ⟨⟨p.player_name, p.text, t, [Ev.callErr, Ev.sleepRL, Ev.callOk]⟩, ci + 2, rc⟩
    | Outcome.rateLimit m =>
      ⟨⟨p.player_name, p.text, errAfterRetry m, [Ev.callErr, Ev.sleepRL, Ev.callErr]⟩, ci + 2, rc⟩
    | Outcome.otherError m =>
      ⟨⟨p.player_name, p.text, errAfterRetry m, [Ev.callErr, Ev.sleepRL, Ev.callErr]⟩, ci + 2, rc⟩
  | Outcome.otherError m =>
    ⟨⟨p.player_name, p.text, errDuring m, [Ev.callErr]⟩, ci + 1, rc⟩

/-- The annotation loop from state `(ci, rc)`. -/
def runP (oracle : Oracle) : List PProfile → Nat → Nat → List URec
  | [], _, _ => []
  | p :: rest, ci, rc =>
    (stepP oracle p rest.isEmpty ci rc).urec ::
      runP oracle rest (stepP oracle p rest.isEmpty ci rc).ci (stepP oracle p rest.isEmpty ci rc).rc

/-- `analyze_players_with_gemini` (src/gemini_analyzer.py, lines 100-143):
process the profiles in order, starting with `request_count = 0`. -/
def analyze_players_with_gemini (oracle : Oracle) (player_profiles : List PProfile) : List URec :=
  runP oracle player_profiles 0 0

/-- The `(ci, rc)` state just before the `i`-th profile is processed. -/
def stBefore (oracle : Oracle) : List PProfile → Nat → Nat → Nat → Nat × Nat
  | _, ci, rc, 0 => (ci, rc)
  | [], ci, rc, _ + 1 => (ci, rc)
  | p :: rest, ci, rc, i + 1 =>
    stBefore oracle rest (stepP oracle p rest.isEmpty ci rc).ci (stepP oracle p rest.isEmpty ci rc).rc i

/-- The analysis string is a response text of some call, or one of the two
textual error messages. -/
def ReplyOrError (oracle : Oracle) (a : PyStr) : Prop :=
  (∃ k t, oracle k = Outcome.success t ∧ a = t) ∨
    (∃ m, a = errAfterRetry m) ∨ (∃ m, a = errDuring m)

/-! ## pdf_table_analyzer.py -/

/-- Result of `analyze_page_with_gemini`: the optional response text, the
next call index, and the events of the call. -/
structure PageOut where
  res : Option PyStr
  ci : Nat
  evs : List Ev
deriving DecidableEq

/-- `analyze_page_with_gemini` (src/pdf_table_analyzer.py, lines 73-113):
one call; on `ResourceExhausted` sleep 65 s and retry once; any error on
the retry — and any non-rate-limit error on the first attempt — yields
`None`.  Page content is handled by the caller's loop. -/
def analyze_page_with_gemini (oracle : Oracle) (ci : Nat) : PageOut :=
  match oracle ci with
  | Outcome.success t => ⟨some t, ci + 1, [Ev.callOk]⟩
  | Outcome.rateLimit _ =>
    match oracle (ci + 1) with
    | Outcome.success t => ⟨some t, ci + 2, [Ev.callErr, Ev.sleepRL, Ev.callOk]⟩
    | Outcome.rateLimit _ => ⟨none, ci + 2, [Ev.callErr, Ev.sleepRL, Ev.callErr]⟩
    | Outcome.otherError _ => ⟨none, ci + 2, [Ev.callErr, Ev.sleepRL, Ev.callErr]⟩
  | Outcome.otherError _ => ⟨none, ci + 1, [Ev.callErr]⟩

/-- The fence-stripping part of `clean_and_parse_json`
(src/pdf_table_analyzer.py, lines 115-128): cut `7` leading and `3`
trailing characters after a leading "```json", else `3` and `3` after a
bare "```", then strip. -/
def cleanFence (s : PyStr) : PyStr :=
  if (("```json").toList).isPrefixOf (strip s) then
    strip (((strip s).drop 7).take ((strip s).length - 7 - 3))
  else if (("```").toList).isPrefixOf (strip s) then
    strip (((strip s).drop 3).take ((strip s).length - 3 - 3))
  else strip s

/-- `clean_and_parse_json`: strip the fence, then parse; `loads` models
the external `json.loads` and returns `none` on a decode error. -/
def clean_and_parse_json {J : Type} (loads : PyStr → Option J) (s : PyStr) : Option J :=
  loads (cleanFence s)

/-- A JSON payload wrapped in a markdown code fence. -/
def fencedJson (j : PyStr) : PyStr :=
  ("```json\n").toList ++ j ++ ("\n```").toList

/-- Accumulated observable state of the page loop. -/
structure LoopOut (J : Type) where
  results : List J
  events : List Ev
  ci : Nat
deriving DecidableEq

/-- The per-page loop of `main` (src/pdf_table_analyzer.py, lines
168-186): the list holds the extraction result of each page in order
(`none` = missing image or text, skipped by `continue`, which also skips
the throttle check); `k` is the 1-based position of the first listed page.
A page's parsed object is appended only when the response parses; the
proactive pause fires after a content page at position `k` with
`k % 14 = 0` that is not the last page. -/
def table_page_loop {J : Type} (loads : PyStr → Option J) (oracle : Oracle) :
    List (Option PyStr) → Nat → Nat → LoopOut J
  | [], ci, _ => ⟨[], [], ci⟩
  | none :: rest, ci, k => table_page_loop loads oracle rest ci (k + 1)
  | some _ :: rest, ci, k =>
    ⟨(match (match (analyze_page_with_gemini oracle ci).res with
        | some s => clean_and_parse_json loads s
        | none => none) with
      | some v => [v]
      | none => []) ++ (table_page_loop loads oracle rest (analyze_page_with_gemini oracle ci).ci (k + 1)).results,
      (analyze_page_with_gemini oracle ci).evs ++
        (if k % 14 = 0 ∧ rest ≠ [] then [Ev.sleepPro] else []) ++
        (table_page_loop loads oracle rest (analyze_page_with_gemini oracle ci).ci (k + 1)).events,
      (table_page_loop loads oracle rest (analyze_page_with_gemini oracle ci).ci (k + 1)).ci⟩

/-- Expected proactive pauses of the page loop: content pages whose
1-based position is a multiple of 14 and which are not last; the count
does not depend on the API outcomes. -/
def countProPos : List (Option PyStr) → Nat → Nat
  | [], _ => 0
  | pg :: rest, k =>
    (if pg.isSome ∧ k % 14 = 0 ∧ rest ≠ [] then 1 else 0) + countProPos rest (k + 1)

/-- Oracle answering every call with the response text "ok". -/
def oracleOk : Oracle := fun _ => Outcome.success (("ok").toList)

/-- Oracle answering every call with the response text "bad". -/
def oracleBad : Oracle := fun _ => Outcome.success (("bad").toList)

/-- Oracle: first call rate-limited, second call fails otherwise, later
calls succeed. -/
def oracleRetryFail : Oracle := fun n =>
  if n = 0 then Outcome.rateLimit (("quota").toList)
  else if n = 1 then Outcome.otherError (("boom").toList)
  else Outcome.success (("ok").toList)

/-- Oracle: first call rate-limited, later calls succeed. -/
def oracleRetryOk : Oracle := fun n =>
  if n = 0 then Outcome.rateLimit (("quota").toList)
  else Outcome.success (("ok").toList)

/-- Concrete JSON parser for witnesses: accepts exactly the payload "ok". -/
def jloadsC : PyStr → Option Nat := fun x =>
  if strip x = ("ok").toList then some 0 else none

/-! ### Lemmas about the chunking loop -/

theorem splitGo_eq_chunkList (t : PyStr) (W O : Nat) (hWO : O < W) :
    ∀ (fuel start cid : Nat), t.length ≤ start + fuel * (W - O) →
      splitGo t W O (fuel + 1) start cid = some (chunkList t W O start cid) := by
  intro fuel
  induction fuel with
  | zero =>
    intro start cid h
    rw [splitGo, if_neg (by omega), chunkList, dif_neg (by omega)]
  | succ n ih =>
    intro start cid h
    by_cases hs : start < t.length
    · rw [splitGo, if_pos hs, chunkList, dif_pos ⟨hs, hWO⟩]
      have harith : start + (n + 1) * (W - O) = (start + (W - O)) + n * (W - O) := by ring
      rw [ih (start + (W - O)) (cid + 1) (by omega)]
    · rw [splitGo, if_neg hs, chunkList, dif_neg (by omega)]

theorem split_eq_chunkList (t : PyStr) (W O : Nat) (hWO : O < W) :
    split_text_into_chunks t W O = some (chunkList t W O 0 1) := by
  unfold split_text_into_chunks
  by_cases ht : t.isEmpty
  · rw [if_pos ht, chunkList, dif_neg]
    have : t.length = 0 := by simpa [List.isEmpty_iff_length_eq_zero] using ht
    omega
  · rw [if_neg ht]
    apply splitGo_eq_chunkList t W O hWO t.length 0 1
    have hd : 1 ≤ W - O := by omega
    calc t.length = t.length * 1 := by ring
    _ ≤ t.length * (W - O) := Nat.mul_le_mul_left _ hd
    _ = 0 + t.length * (W - O) := by ring

theorem chunkList_join_drop (t : PyStr) (W O : Nat) (hWO : O < W) :
    ∀ (n start cid : Nat), t.length - start ≤ n →
      ((chunkList t W O start cid).map (fun c => c.text.drop O)).flatten = t.drop (start + O) := by
  intro n
  induction n with
  | zero =>
    intro start cid h
    rw [chunkList, dif_neg (by omega), List.map_nil, List.flatten_nil,
      Eq.comm, List.drop_eq_nil_iff]
    omega
  | succ n ih =>
    intro start cid h
    rw [chunkList]
    by_cases hs : start < t.length
    · rw [dif_pos ⟨hs, hWO⟩, List.map_cons, List.flatten_cons,
        ih (start + (W - O)) (cid + 1) (by omega)]
      have h1 : ((t.drop start).take W).drop O = (t.drop (start + O)).take (W - O) := by
        rw [List.drop_take, List.drop_drop]
      have h2 : start + (W - O) + O = (start + O) + (W - O) := by omega
      have h3 : t.drop ((start + O) + (W - O)) = (t.drop (start + O)).drop (W - O) := by
        rw [List.drop_drop]
      rw [h1, h2, h3]
      exact List.take_append_drop _ _
    · rw [dif_neg (by omega), List.map_nil, List.flatten_nil, Eq.comm, List.drop_eq_nil_iff]
      omega

theorem reconstruct_chunkList (t : PyStr) (W O : Nat) (hWO : O < W) (cid : Nat) :
    reconstruct O (chunkList t W O 0 cid) = t := by
  rw [chunkList]
  by_cases h0 : 0 < t.length
  · rw [dif_pos ⟨h0, hWO⟩]
    simp only [reconstruct]
    rw [chunkList_join_drop t W O hWO t.length (0 + (W - O)) (cid + 1) (by omega)]
    have h2 : 0 + (W - O) + O = W := by omega
    rw [h2, List.drop_zero]
    exact List.take_append_drop _ _
  · rw [dif_neg (by omega)]
    simp only [reconstruct]
    have : t.length = 0 := by omega
    exact (List.eq_nil_of_length_eq_zero this).symm

theorem chunkList_head? (t : PyStr) (W O start cid : Nat)
    (h : start < t.length) (hWO : O < W) :
    (chunkList t W O start cid).head? = some ⟨cid, (t.drop start).take W⟩ := by
  rw [chunkList, dif_pos ⟨h, hWO⟩, List.head?_cons]

theorem chunkList_chain (t : PyStr) (W O : Nat) (hWO : O < W) :
    ∀ (n start cid : Nat), t.length - start ≤ n →
      List.Chain' (chunkR W O) (chunkList t W O start cid) := by
  intro n
  induction n with
  | zero =>
    intro start cid h
    rw [chunkList, dif_neg (by omega)]
    exact List.chain'_nil
  | succ n ih =>
    intro start cid h
    rw [chunkList]
    by_cases hs : start < t.length
    · rw [dif_pos ⟨hs, hWO⟩, List.chain'_cons']
      constructor
      · intro b hb
        by_cases h2 : start + (W - O) < t.length
        · rw [chunkList_head? t W O _ _ h2 hWO, Option.mem_def, Option.some_inj] at hb
          subst hb
          dsimp only [chunkR]
          intro hlen
          simp only [List.length_take, List.length_drop] at hlen
          have hWle : start + W ≤ t.length := by omega
          refine ⟨?_, ?_, ?_⟩
          · simp only [List.length_take, List.length_drop]
            omega
          · simp only [List.length_take, List.length_drop]
            omega
          · simp only [List.length_take, List.length_drop]
            have hmin : min W (t.length - start) - O = W - O := by omega
            rw [hmin, List.drop_take, List.drop_drop, List.take_take]
            have hWO2 : W - (W - O) = O := by omega
            have hminO : min O W = O := by omega
            rw [hWO2, hminO]
        · rw [chunkList, dif_neg (by omega), List.head?_nil] at hb
          exact absurd hb (by simp)
      · exact ih (start + (W - O)) (cid + 1) (by omega)
    · rw [dif_neg (by omega)]
      exact List.chain'_nil

/-! ### Claims C1 and C9 -/

/-- C1 (counterexample): with text "abc", window size 4 and overlap 2, the
loop yields windows "abc" and "c"; this consecutive pair does not share
exactly 2 characters of overlap (the second window is a final window
shorter than W, which the claim allows, yet the overlap is 1, not O). -/
theorem C1_counterexample :
    split_text_into_chunks (("abc").toList) 4 2 =
      some [⟨1, ("abc").toList⟩, ⟨2, ("c").toList⟩] ∧
    ¬ sharesOverlap 2 (("abc").toList) (("c").toList) := by
  constructor
  · decide
  · decide

/-- C1 (amended): for `0 < O < W` the loop terminates and yields windows
such that every pair of consecutive windows whose earlier member has full
length `W` shares exactly `O` characters of overlap (pairs whose earlier
member is truncated by the end of the text may share fewer), and
concatenating the first window with each subsequent window minus its first
`O` characters reconstructs the text exactly. -/
theorem C1_amended (t : PyStr) (W O : Nat) (hO : 0 < O) (hWO : O < W) :
    ∃ cs, split_text_into_chunks t W O = some cs ∧
      List.Chain' (chunkR W O) cs ∧ reconstruct O cs = t :=
  ⟨chunkList t W O 0 1, split_eq_chunkList t W O hWO,
    chunkList_chain t W O hWO t.length 0 1 (by omega),
    reconstruct_chunkList t W O hWO 1⟩

/-- Witness for C1_amended at text "abcdefghij", W = 6, O = 2. -/
theorem C1_amended_witness :
    ∃ cs, split_text_into_chunks (("abcdefghij").toList) 6 2 = some cs ∧
      List.Chain' (chunkR 6 2) cs ∧ reconstruct 2 cs = ("abcdefghij").toList :=
  C1_amended (("abcdefghij").toList) 6 2 (by decide) (by decide)

/-- C9: for every text and window size `W` and overlap `O` with
`0 < O < W`, the chunking loop terminates (fuel `length + 1` suffices, so
the loop never runs forever). -/
theorem C9_termination (t : PyStr) (W O : Nat) (hO : 0 < O) (hWO : O < W) :
    ∃ cs, split_text_into_chunks t W O = some cs :=
  ⟨chunkList t W O 0 1, split_eq_chunkList t W O hWO⟩

/-- Witness for C9_termination at text "abcdefg", W = 5, O = 2. -/
theorem C9_witness :
    ∃ cs, split_text_into_chunks (("abcdefg").toList) 5 2 = some cs :=
  C9_termination (("abcdefg").toList) 5 2 (by decide) (by decide)

/-! ### Normal forms of cleansed strings -/

theorem charOfNat_toNat : ∀ m, m < 91 → 65 ≤ m → (Char.ofNat (m + 32)).toNat = m + 32 := by
  decide

theorem toLower_toLower (c : Char) : Char.toLower (Char.toLower c) = Char.toLower c := by
  by_cases h : 65 ≤ c.toNat ∧ c.toNat ≤ 90
  · have h1 : Char.toLower c = Char.ofNat (c.toNat + 32) := by
      simp only [Char.toLower]
      rw [if_pos h]
    have hv : (Char.ofNat (c.toNat + 32)).toNat = c.toNat + 32 :=
      charOfNat_toNat c.toNat (by omega) (by omega)
    rw [h1]
    simp only [Char.toLower]
    rw [hv, if_neg (by omega)]
  · have h1 : Char.toLower c = c := by
      simp only [Char.toLower]
      rw [if_neg h]
    rw [h1]
    exact h1

theorem head?_dropWhile_false (p : Char → Bool) :
    ∀ (l : PyStr) (c : Char), (l.dropWhile p).head? = some c → p c = false := by
  intro l
  induction l with
  | nil =>
    intro c h
    simp [List.dropWhile] at h
  | cons a r ih =>
    intro c h
    rw [List.dropWhile_cons] at h
    split at h
    · exact ih c h
    · next hp =>
      rw [List.head?_cons, Option.some_inj] at h
      subst h
      simpa using hp

theorem dropTrail_prefix_self (p : Char → Bool) (l : PyStr) : dropTrail p l <+: l := by
  unfold dropTrail
  conv_rhs => rw [← l.reverse_reverse]
  exact List.reverse_prefix.mpr (List.dropWhile_suffix p)

theorem prefix_head?_some (x y : PyStr) (c : Char) (h : x <+: y) (hc : x.head? = some c) :
    y.head? = some c := by
  obtain ⟨w, rfl⟩ := h
  cases x with
  | nil => simp at hc
  | cons a r =>
    rw [List.head?_cons, Option.some_inj] at hc
    subst hc
    rfl

theorem strip_subset (l : PyStr) : ∀ c ∈ strip l, c ∈ l := by
  intro c hc
  unfold strip at hc
  have h1 := (dropTrail_prefix_self isSpaceC (l.dropWhile isSpaceC)).sublist.subset hc
  exact (List.dropWhile_sublist isSpaceC).subset h1

theorem strip_head?_false (l : PyStr) (c : Char) (h : (strip l).head? = some c) :
    isSpaceC c = false := by
  unfold strip at h
  have h1 := prefix_head?_some _ _ c (dropTrail_prefix_self isSpaceC (l.dropWhile isSpaceC)) h
  exact head?_dropWhile_false isSpaceC l c h1

theorem strip_getLast?_false (l : PyStr) (c : Char) (h : (strip l).getLast? = some c) :
    isSpaceC c = false := by
  unfold strip dropTrail at h
  rw [List.getLast?_reverse] at h
  exact head?_dropWhile_false isSpaceC _ c h

theorem dropWhile_eq_self_of_head (p : Char → Bool) (l : PyStr)
    (h : ∀ c, l.head? = some c → p c = false) : l.dropWhile p = l := by
  cases l with
  | nil => rfl
  | cons a r =>
    rw [List.dropWhile_cons, if_neg]
    rw [h a (by rfl)]
    simp

theorem strip_eq_self (l : PyStr)
    (h1 : ∀ c, l.head? = some c → isSpaceC c = false)
    (h2 : ∀ c, l.getLast? = some c → isSpaceC c = false) : strip l = l := by
  unfold strip dropTrail
  rw [dropWhile_eq_self_of_head isSpaceC l h1]
  rw [dropWhile_eq_self_of_head isSpaceC l.reverse (fun c hc => h2 c (by
    rw [← List.head?_reverse]
    exact hc))]
  exact l.reverse_reverse

theorem strip_strip (l : PyStr) : strip (strip l) = strip l :=
  strip_eq_self (strip l) (strip_head?_false l) (strip_getLast?_false l)

theorem mem_collapseAux (c : Char) :
    ∀ (l : PyStr) (b : Bool), c ∈ collapseAux b l → c = ' ' ∨ c ∈ l := by
  intro l
  induction l with
  | nil =>
    intro b h
    simp [collapseAux] at h
  | cons a rest ih =>
    intro b h
    by_cases ha : isSpaceC a = true
    · cases b with
      | true =>
        rw [collapseAux, if_pos ha, if_pos rfl] at h
        rcases ih true h with h2 | h2
        · exact Or.inl h2
        · exact Or.inr (List.mem_cons_of_mem a h2)
      | false =>
        rw [collapseAux, if_pos ha, if_neg (by simp)] at h
        rcases List.mem_cons.mp h with h1 | h1
        · exact Or.inl h1
        · rcases ih true h1 with h2 | h2
          · exact Or.inl h2
          · exact Or.inr (List.mem_cons_of_mem a h2)
    · rw [collapseAux, if_neg ha] at h
      rcases List.mem_cons.mp h with h1 | h1
      · exact Or.inr (h1 ▸ List.mem_cons_self a rest)
      · rcases ih false h1 with h2 | h2
        · exact Or.inl h2
        · exact Or.inr (List.mem_cons_of_mem a h2)

theorem collapseAux_space_mem :
    ∀ (l : PyStr) (b : Bool) (c : Char), c ∈ collapseAux b l → isSpaceC c = true → c = ' ' := by
  intro l
  induction l with
  | nil =>
    intro b c h _
    simp [collapseAux] at h
  | cons a rest ih =>
    intro b c h hsp
    by_cases ha : isSpaceC a = true
    · cases b with
      | true =>
        rw [collapseAux, if_pos ha, if_pos rfl] at h
        exact ih true c h hsp
      | false =>
        rw [collapseAux, if_pos ha, if_neg (by simp)] at h
        rcases List.mem_cons.mp h with h1 | h1
        · exact h1
        · exact ih true c h1 hsp
    · rw [collapseAux, if_neg ha] at h
      rcases List.mem_cons.mp h with h1 | h1
      · subst h1
        exact absurd hsp (by simpa using ha)
      · exact ih false c h1 hsp

theorem collapseAux_true_head (l : PyStr) (c : Char)
    (h : (collapseAux true l).head? = some c) : isSpaceC c = false := by
  induction l with
  | nil => simp [collapseAux] at h
  | cons a rest ih =>
    by_cases ha : isSpaceC a = true
    · rw [collapseAux, if_pos ha, if_pos rfl] at h
      exact ih h
    · rw [collapseAux, if_neg ha, List.head?_cons, Option.some_inj] at h
      subst h
      simpa using ha

theorem collapseAux_chain : ∀ (l : PyStr) (b : Bool), List.Chain' NTS (collapseAux b l) := by
  intro l
  induction l with
  | nil =>
    intro b
    simp [collapseAux]
  | cons a rest ih =>
    intro b
    by_cases ha : isSpaceC a = true
    · cases b with
      | true =>
        rw [collapseAux, if_pos ha, if_pos rfl]
        exact ih true
      | false =>
        rw [collapseAux, if_pos ha, if_neg (by simp), List.chain'_cons']
        refine ⟨?_, ih true⟩
        intro y hy _
        rw [Option.mem_def] at hy
        exact collapseAux_true_head rest y hy
    · rw [collapseAux, if_neg ha, List.chain'_cons']
      refine ⟨?_, ih false⟩
      intro y hy hsp
      exact absurd hsp (by simpa using ha)

theorem collapseAux_true_eq_false (l : PyStr)
    (h : ∀ c, l.head? = some c → isSpaceC c = false) :
    collapseAux true l = collapseAux false l := by
  cases l with
  | nil => rfl
  | cons a rest =>
    have ha : isSpaceC a = false := h a rfl
    rw [collapseAux, collapseAux, if_neg (by simp [ha]), if_neg (by simp [ha])]

theorem collapse_eq_self (l : PyStr)
    (hsp : ∀ c ∈ l, isSpaceC c = true → c = ' ')
    (hch : List.Chain' NTS l) : collapseSpaces l = l := by
  unfold collapseSpaces
  induction l with
  | nil => rfl
  | cons a rest ih =>
    rw [List.chain'_cons'] at hch
    by_cases ha : isSpaceC a = true
    · rw [collapseAux, if_pos ha, if_neg (by simp)]
      have ha2 : a = ' ' := hsp a (List.mem_cons_self a rest) ha
      have hrest : ∀ c, rest.head? = some c → isSpaceC c = false := by
        intro c hc
        exact hch.1 c (Option.mem_def.mpr hc) ha
      rw [collapseAux_true_eq_false rest hrest,
        ih (fun c hc h => hsp c (List.mem_cons_of_mem a hc) h) hch.2, ha2]
    · rw [collapseAux, if_neg ha,
        ih (fun c hc h => hsp c (List.mem_cons_of_mem a hc) h) hch.2]

theorem mem_collapseSpaces (c : Char) (l : PyStr) (h : c ∈ collapseSpaces l) :
    c = ' ' ∨ c ∈ l :=
  mem_collapseAux c l false h

theorem collapse_space_mem (l : PyStr) (c : Char) (h : c ∈ collapseSpaces l)
    (hsp : isSpaceC c = true) : c = ' ' :=
  collapseAux_space_mem l false c h hsp

theorem collapse_chain (l : PyStr) : List.Chain' NTS (collapseSpaces l) :=
  collapseAux_chain l false

theorem strip_chain' (l : PyStr) (h : List.Chain' NTS l) : List.Chain' NTS (strip l) := by
  unfold strip
  exact List.Chain'.prefix (h.suffix (List.dropWhile_suffix isSpaceC))
    (dropTrail_prefix_self isSpaceC _)

theorem stripSuffix1_subset (l : PyStr) : ∀ c ∈ stripSuffix1 l, c ∈ l := by
  intro c hc
  unfold stripSuffix1 at hc
  split at hc
  · exact List.take_subset _ _ (strip_subset _ c hc)
  · exact hc

/-! ### Characters of a cleansed name are stable under every stage -/

theorem cleanse_mem (s : PyStr) (c : Char) (hc : c ∈ cleanse_name s) :
    isAllowedC c = true ∧ Char.toLower c = c := by
  unfold cleanse_name at hc
  have h1 := strip_subset _ c hc
  rcases mem_collapseSpaces c _ h1 with h2 | h2
  · subst h2
    exact ⟨by decide, by decide⟩
  · rw [List.mem_filter] at h2
    refine ⟨h2.2, ?_⟩
    have h4 : c ∈ s.map Char.toLower := stripSuffix1_subset _ c h2.1
    rw [List.mem_map] at h4
    obtain ⟨a, _, rfl⟩ := h4
    exact toLower_toLower a

theorem cleanse_space_mem (s : PyStr) (c : Char) (hc : c ∈ cleanse_name s)
    (hsp : isSpaceC c = true) : c = ' ' := by
  unfold cleanse_name at hc
  exact collapse_space_mem _ c (strip_subset _ c hc) hsp

theorem cleanse_chain (s : PyStr) : List.Chain' NTS (cleanse_name s) := by
  unfold cleanse_name
  exact strip_chain' _ (collapse_chain _)

theorem cleanse_head (s : PyStr) (c : Char) (h : (cleanse_name s).head? = some c) :
    isSpaceC c = false := by
  unfold cleanse_name at h
  exact strip_head?_false _ c h

theorem cleanse_last (s : PyStr) (c : Char) (h : (cleanse_name s).getLast? = some c) :
    isSpaceC c = false := by
  unfold cleanse_name at h
  exact strip_getLast?_false _ c h

theorem cleanse_eq_self (x : PyStr)
    (hmap : x.map Char.toLower = x)
    (hsuf : stripSuffix1 x = x)
    (hfil : x.filter isAllowedC = x)
    (hcol : collapseSpaces x = x)
    (hstr : strip x = x) : cleanse_name x = x := by
  unfold cleanse_name
  rw [hmap, hsuf, hfil, hcol, hstr]

/-! ### Claims C2 -/

/-- C2 (counterexample): name cleansing is not idempotent.  The raw name
"john jr jr" ends in two honorific suffixes; one cleansing pass strips only
one of them (the loop breaks after the first match), yielding "john jr",
and re-cleansing strips the remaining " jr", so the cleansed form is not
returned unchanged. -/
theorem C2_counterexample :
    cleanse_name (cleanse_name (("john jr jr").toList)) ≠
      cleanse_name (("john jr jr").toList) := by
  decide

/-- C2 (amended): cleansing is idempotent exactly on names whose cleansed
form does not still end in one of the honorific suffixes: if no suffix of
the fixed list matches the cleansed name, re-cleansing returns it
unchanged (when the cleansed form does still end in a suffix, e.g. for a
raw name ending in two suffixes, re-cleansing strips it again). -/
theorem C2_amended (s : PyStr)
    (h : suffixes_to_remove.find? (fun suf => suf.isSuffixOf (cleanse_name s)) = none) :
    cleanse_name (cleanse_name s) = cleanse_name s := by
  apply cleanse_eq_self
  · rw [List.map_congr_left (fun c hc => (cleanse_mem s c hc).2)]
    exact List.map_id _
  · unfold stripSuffix1
    rw [h]
  · exact List.filter_eq_self.mpr (fun c hc => (cleanse_mem s c hc).1)
  · exact collapse_eq_self _ (cleanse_space_mem s) (cleanse_chain s)
  · exact strip_eq_self _ (cleanse_head s) (cleanse_last s)

/-- Witness for C2_amended at the raw name "Odell Beckham Jr". -/
theorem C2_amended_witness :
    suffixes_to_remove.find?
        (fun suf => suf.isSuffixOf (cleanse_name (("Odell Beckham Jr").toList))) = none ∧
    cleanse_name (cleanse_name (("Odell Beckham Jr").toList)) =
      cleanse_name (("Odell Beckham Jr").toList) :=
  ⟨by decide, C2_amended (("Odell Beckham Jr").toList) (by decide)⟩

/-! ### Lemmas about the lookup dictionary -/

theorem countP_update (m : List (PyStr × PyStr)) (k v kx : PyStr) :
    (m.map (fun p => if p.1 == k then (p.1, v) else p)).countP (fun p => p.1 == kx) =
      m.countP (fun p => p.1 == kx) := by
  rw [List.countP_map]
  apply List.countP_congr
  intro x _
  simp only [Function.comp_apply]
  by_cases hx : (x.1 == k) = true
  · rw [if_pos hx]
  · rw [if_neg hx]

theorem dinsert_countP_same (m : List (PyStr × PyStr)) (k v : PyStr)
    (h : m.countP (fun p => p.1 == k) ≤ 1) :
    (dinsert m k v).countP (fun p => p.1 == k) = 1 := by
  unfold dinsert
  by_cases ha : m.any (fun p => p.1 == k) = true
  · rw [if_pos ha, countP_update]
    have hp : 0 < m.countP (fun p => p.1 == k) := by
      rw [List.countP_pos_iff]
      simpa using ha
    omega
  · rw [if_neg ha, List.countP_append]
    have h0 : m.countP (fun p => p.1 == k) = 0 := by
      rw [List.countP_eq_zero]
      intro a hmem hak
      exact ha (List.any_eq_true.mpr ⟨a, hmem, hak⟩)
    rw [h0]
    simp

theorem dinsert_countP_other (m : List (PyStr × PyStr)) (k v kx : PyStr) (hne : kx ≠ k) :
    (dinsert m k v).countP (fun p => p.1 == kx) = m.countP (fun p => p.1 == kx) := by
  unfold dinsert
  by_cases ha : m.any (fun p => p.1 == k) = true
  · rw [if_pos ha, countP_update]
  · rw [if_neg ha, List.countP_append]
    have hkkx : (k == kx) = false := by
      rw [beq_eq_false_iff_ne]
      exact fun h => hne h.symm
    simp [hkkx]

theorem dlookup_update (k v : PyStr) :
    ∀ (m : List (PyStr × PyStr)), m.any (fun p => p.1 == k) = true →
      dlookup (m.map (fun p => if p.1 == k then (p.1, v) else p)) k = some v := by
  intro m
  induction m with
  | nil =>
    intro h
    simp at h
  | cons a rest ih =>
    intro h
    rw [List.map_cons]
    by_cases ha : (a.1 == k) = true
    · rw [if_pos ha, dlookup, if_pos ha]
    · rw [if_neg ha, dlookup, if_neg ha]
      have hrest : rest.any (fun p => p.1 == k) = true := by
        rcases List.any_eq_true.mp h with ⟨x, hx, hxk⟩
        rcases List.mem_cons.mp hx with h1 | h1
        · exact absurd (h1 ▸ hxk) (by simpa using ha)
        · exact List.any_eq_true.mpr ⟨x, h1, hxk⟩
      exact ih hrest

theorem dlookup_update_other (k v kx : PyStr) (hne : kx ≠ k) :
    ∀ (m : List (PyStr × PyStr)),
      dlookup (m.map (fun p => if p.1 == k then (p.1, v) else p)) kx = dlookup m kx := by
  intro m
  induction m with
  | nil => rfl
  | cons a rest ih =>
    rw [List.map_cons]
    by_cases hx : (a.1 == kx) = true
    · have hak : (a.1 == k) = false := by
        have h1 : a.1 = kx := by simpa using hx
        rw [beq_eq_false_iff_ne, h1]
        exact hne
      rw [if_neg (by simp [hak]), dlookup, if_pos hx, dlookup, if_pos hx]
    · by_cases hak : (a.1 == k) = true
      · rw [if_pos hak, dlookup, if_neg hx, dlookup, if_neg hx]
        exact ih
      · rw [if_neg hak, dlookup, if_neg hx, dlookup, if_neg hx]
        exact ih

theorem dlookup_append_single_same (k v : PyStr) :
    ∀ (m : List (PyStr × PyStr)), (∀ p ∈ m, (p.1 == k) = false) →
      dlookup (m ++ [(k, v)]) k = some v := by
  intro m
  induction m with
  | nil =>
    intro _
    rw [List.nil_append, dlookup, if_pos (by simp)]
  | cons a rest ih =>
    intro h
    rw [List.cons_append, dlookup, if_neg (by simp [h a (List.mem_cons_self a rest)])]
    exact ih (fun p hp => h p (List.mem_cons_of_mem a hp))

theorem dlookup_append_single_other (k v kx : PyStr) (hne : kx ≠ k) :
    ∀ (m : List (PyStr × PyStr)), dlookup (m ++ [(k, v)]) kx = dlookup m kx := by
  intro m
  induction m with
  | nil =>
    rw [List.nil_append, dlookup, dlookup, if_neg (by
      simp only [beq_iff_eq]
      exact fun h => hne h.symm)]
    rfl
  | cons a rest ih =>
    rw [List.cons_append, dlookup]
    by_cases hx : (a.1 == kx) = true
    · rw [if_pos hx, dlookup, if_pos hx]
    · rw [if_neg hx, dlookup, if_neg hx]
      exact ih

theorem dlookup_dinsert_same (m : List (PyStr × PyStr)) (k v : PyStr) :
    dlookup (dinsert m k v) k = some v := by
  unfold dinsert
  by_cases ha : m.any (fun p => p.1 == k) = true
  · rw [if_pos ha]
    exact dlookup_update k v m ha
  · rw [if_neg ha]
    apply dlookup_append_single_same
    intro p hp
    by_cases hpk : (p.1 == k) = true
    · exact absurd (List.any_eq_true.mpr ⟨p, hp, hpk⟩) ha
    · simpa using hpk

theorem dlookup_dinsert_other (m : List (PyStr × PyStr)) (k v kx : PyStr) (hne : kx ≠ k) :
    dlookup (dinsert m k v) kx = dlookup m kx := by
  unfold dinsert
  by_cases ha : m.any (fun p => p.1 == k) = true
  · rw [if_pos ha]
    exact dlookup_update_other k v kx hne m
  · rw [if_neg ha]
    exact dlookup_append_single_other k v kx hne m

theorem lstep_KInv (m : List (PyStr × PyStr)) (item : Item) (h : KInv m) : KInv (lstep m item) := by
  unfold lstep
  by_cases hc : (truthy item.player_name && truthy item.analysis) = true
  · rw [if_pos hc]
    intro kx
    by_cases hk : kx = finalKey (item.player_name.getD [])
    · rw [hk, dinsert_countP_same _ _ _ (h _)]
    · rw [dinsert_countP_other _ _ _ kx hk]
      exact h kx
  · rw [if_neg hc]
    exact h

theorem contributes_parts (item : Item) (k : PyStr) (hc : contributes item k = true) :
    (truthy item.player_name && truthy item.analysis) = true ∧
      finalKey (item.player_name.getD []) = k := by
  unfold contributes at hc
  simp only [Bool.and_eq_true, beq_iff_eq] at hc
  refine ⟨by simp [hc.1.1, hc.1.2], hc.2⟩

theorem contributes_of_parts (item : Item) (k : PyStr)
    (h1 : (truthy item.player_name && truthy item.analysis) = true)
    (h2 : finalKey (item.player_name.getD []) = k) : contributes item k = true := by
  unfold contributes
  simp only [Bool.and_eq_true, beq_iff_eq] at h1 ⊢
  exact ⟨h1, h2⟩

theorem foldl_dlookup (k : PyStr) :
    ∀ (items : List Item) (m : List (PyStr × PyStr)),
      dlookup (items.foldl lstep m) k = (lastContrib k items).or (dlookup m k) := by
  intro items
  induction items with
  | nil =>
    intro m
    rw [List.foldl_nil, lastContrib, Option.none_or]
  | cons item rest ih =>
    intro m
    rw [List.foldl_cons, ih (lstep m item), lastContrib]
    cases hl : lastContrib k rest with
    | some v => rfl
    | none =>
      rw [Option.none_or]
      by_cases hc : contributes item k = true
      · rw [if_pos hc]
        obtain ⟨h1, h2⟩ := contributes_parts item k hc
        unfold lstep
        rw [if_pos h1, ← h2]
        exact dlookup_dinsert_same m _ _
      · rw [if_neg hc, Option.none_or]
        unfold lstep
        by_cases h1 : (truthy item.player_name && truthy item.analysis) = true
        · rw [if_pos h1]
          apply dlookup_dinsert_other
          intro hk
          exact hc (contributes_of_parts item k h1 hk.symm)
        · rw [if_neg h1]

theorem foldl_countP (k : PyStr) :
    ∀ (items : List Item) (m : List (PyStr × PyStr)), KInv m →
      (items.foldl lstep m).countP (fun p => p.1 == k) =
        if items.any (fun it => contributes it k) then 1
        else m.countP (fun p => p.1 == k) := by
  intro items
  induction items with
  | nil =>
    intro m _
    rw [List.foldl_nil, List.any_nil, if_neg (by simp)]
  | cons item rest ih =>
    intro m hm
    rw [List.foldl_cons, ih (lstep m item) (lstep_KInv m item hm), List.any_cons]
    by_cases hc : contributes item k = true
    · rw [hc]
      obtain ⟨h1, h2⟩ := contributes_parts item k hc
      have hins : (lstep m item).countP (fun p => p.1 == k) = 1 := by
        unfold lstep
        rw [if_pos h1, ← h2]
        exact dinsert_countP_same m _ _ (hm _)
      rw [hins]
      cases hre : rest.any (fun it => contributes it k) <;> simp
    · have hc2 : contributes item k = false := by
        cases hval : contributes item k
        · rfl
        · exact absurd hval hc
      rw [hc2]
      have hstep : (lstep m item).countP (fun p => p.1 == k) =
          m.countP (fun p => p.1 == k) := by
        unfold lstep
        by_cases h1 : (truthy item.player_name && truthy item.analysis) = true
        · rw [if_pos h1]
          apply dinsert_countP_other
          intro hk
          exact hc (contributes_of_parts item k h1 hk.symm)
        · rw [if_neg h1]
      rw [hstep]
      simp only [Bool.false_or]

/-! ### Claims C6 and C10 -/

/-- C6: in `create_analysis_lookup` each truthy record is keyed by the
alias-table image of its cleansed name when the table contains it,
otherwise the cleansed name itself ("Cam Ward Jr" cleanses to "cam ward"
and is keyed as "cameron ward"); the output dict holds exactly one entry
per contributed key, and the entry's value is the analysis of the record
processed last among those sharing that final key. -/
theorem C6_lookup (player_analyses : List Item) (k : PyStr) :
    (create_analysis_lookup player_analyses).countP (fun p => p.1 == k) =
      (if player_analyses.any (fun it => contributes it k) then 1 else 0) ∧
    dlookup (create_analysis_lookup player_analyses) k = lastContrib k player_analyses ∧
    finalKey (("Cam Ward Jr").toList) = ("cameron ward").toList := by
  refine ⟨?_, ?_, by decide⟩
  · unfold create_analysis_lookup
    rw [foldl_countP k player_analyses [] (fun kx => by simp)]
    cases player_analyses.any (fun it => contributes it k) <;> simp
  · unfold create_analysis_lookup
    rw [foldl_dlookup k player_analyses []]
    cases hl : lastContrib k player_analyses <;> rfl

/-- C10: `create_analysis_lookup` silently drops every record whose
player_name or analysis is missing, None, or the empty string (Python
falsy check): such a record contributes nothing to the lookup map. -/
theorem C10_falsy_drop (l1 l2 : List Item) (item : Item)
    (h : truthy item.player_name = false ∨ truthy item.analysis = false) :
    create_analysis_lookup (l1 ++ item :: l2) = create_analysis_lookup (l1 ++ l2) := by
  unfold create_analysis_lookup
  rw [List.foldl_append, List.foldl_append, List.foldl_cons]
  have hstep : lstep (List.foldl lstep [] l1) item = List.foldl lstep [] l1 := by
    unfold lstep
    rw [if_neg]
    rcases h with h | h <;> simp [h]
  rw [hstep]

/-- Witness for C10_falsy_drop: a record whose analysis is the empty
string is dropped even though both fields are present. -/
theorem C10_witness :
    (truthy (some (("Cam Ward").toList)) = false ∨ truthy (some []) = false) ∧
    create_analysis_lookup
        ([⟨some (("John Smith").toList), some (("good pick").toList)⟩] ++
          ⟨some (("Cam Ward").toList), some []⟩ :: []) =
      create_analysis_lookup ([⟨some (("John Smith").toList), some (("good pick").toList)⟩] ++ []) :=
  ⟨Or.inr (by decide),
    C10_falsy_drop [⟨some (("John Smith").toList), some (("good pick").toList)⟩] []
      ⟨some (("Cam Ward").toList), some []⟩ (Or.inr (by decide))⟩

/-! ### Lemmas about header-delimited splitting -/

theorem reSplit_none (find : Finder) (t : PyStr) (h : find t = none) :
    reSplit find t = [t] := by
  rw [reSplit, h]

theorem reSplit_some (find : Finder) (t : PyStr) (m : ReMatch t) (h : find t = some m) :
    reSplit find t = t.take m.ms :: m.cap :: reSplit find (t.drop (m.ms + m.ml)) := by
  rw [reSplit, h]

theorem countMatches_none (find : Finder) (t : PyStr) (h : find t = none) :
    countMatches find t = 0 := by
  rw [countMatches, h]

theorem countMatches_some (find : Finder) (t : PyStr) (m : ReMatch t) (h : find t = some m) :
    countMatches find t = countMatches find (t.drop (m.ms + m.ml)) + 1 := by
  rw [countMatches, h]

theorem profilesFrom_none (find : Finder) (cap t : PyStr) (h : find t = none) :
    profilesFrom find cap t = [⟨strip cap, strip t⟩] := by
  rw [profilesFrom, h]

theorem profilesFrom_some (find : Finder) (cap : PyStr) (t : PyStr) (m : ReMatch t)
    (h : find t = some m) :
    profilesFrom find cap t =
      ⟨strip cap, strip (t.take m.ms)⟩ :: profilesFrom find m.cap (t.drop (m.ms + m.ml)) := by
  rw [profilesFrom, h]

theorem reSplit_length (find : Finder) :
    ∀ (n : Nat) (t : PyStr), t.length ≤ n →
      (reSplit find t).length = 2 * countMatches find t + 1 := by
  intro n
  induction n with
  | zero =>
    intro t h
    cases hf : find t with
    | none =>
      rw [reSplit_none find t hf, countMatches_none find t hf]
      rfl
    | some m =>
      have h1 := m.hpos
      have h2 := m.hle
      omega
  | succ n ih =>
    intro t h
    cases hf : find t with
    | none =>
      rw [reSplit_none find t hf, countMatches_none find t hf]
      rfl
    | some m =>
      rw [reSplit_some find t m hf, countMatches_some find t m hf]
      simp only [List.length_cons]
      have h1 := m.hpos
      have h2 := m.hle
      rw [ih (t.drop (m.ms + m.ml)) (by simp only [List.length_drop]; omega)]
      omega

theorem buildProfiles_length :
    ∀ (l : List PyStr), (buildProfiles l).length = (l.length + 1) / 2 := by
  intro l
  induction l using buildProfiles.induct with
  | case1 => rfl
  | case2 nm =>
    simp [buildProfiles]
  | case3 nm ct rest ih =>
    rw [buildProfiles]
    simp only [List.length_cons, ih]
    omega

theorem split_count (find : Finder) (t : PyStr) :
    (split_text_by_player find t).length = countMatches find t := by
  unfold split_text_by_player
  cases hf : find t with
  | none =>
    rw [reSplit_none find t hf, countMatches_none find t hf]
    rfl
  | some m =>
    rw [reSplit_some find t m hf, countMatches_some find t m hf]
    rw [if_pos (by simp only [List.length_cons]; omega)]
    show (buildProfiles (m.cap :: reSplit find (t.drop (m.ms + m.ml)))).length = _
    rw [buildProfiles_length]
    simp only [List.length_cons]
    rw [reSplit_length find (t.drop (m.ms + m.ml)).length _ (Nat.le_refl _)]
    omega

theorem split_of_none (find : Finder) (t : PyStr) (h : find t = none) :
    split_text_by_player find t = [] := by
  unfold split_text_by_player
  rw [reSplit_none find t h]
  rfl

theorem buildProfiles_eq_profilesFrom (find : Finder) :
    ∀ (n : Nat) (t : PyStr), t.length ≤ n → ∀ cap : PyStr,
      buildProfiles (cap :: reSplit find t) = profilesFrom find cap t := by
  intro n
  induction n with
  | zero =>
    intro t h cap
    cases hf : find t with
    | none =>
      rw [reSplit_none find t hf, profilesFrom_none find cap t hf, buildProfiles,
        buildProfiles]
    | some m =>
      have h1 := m.hpos
      have h2 := m.hle
      omega
  | succ n ih =>
    intro t h cap
    cases hf : find t with
    | none =>
      rw [reSplit_none find t hf, profilesFrom_none find cap t hf, buildProfiles,
        buildProfiles]
    | some m =>
      rw [reSplit_some find t m hf, profilesFrom_some find cap t m hf, buildProfiles]
      have h1 := m.hpos
      have h2 := m.hle
      rw [ih (t.drop (m.ms + m.ml)) (by simp only [List.length_drop]; omega) m.cap]

theorem split_profilesFrom (find : Finder) (t : PyStr) (m : ReMatch t) (h : find t = some m) :
    split_text_by_player find t = profilesFrom find m.cap (t.drop (m.ms + m.ml)) := by
  unfold split_text_by_player
  rw [reSplit_some find t m h, if_pos (by simp only [List.length_cons]; omega)]
  show buildProfiles (m.cap :: reSplit find (t.drop (m.ms + m.ml))) = _
  exact buildProfiles_eq_profilesFrom find (t.drop (m.ms + m.ml)).length _ (Nat.le_refl _) m.cap

theorem strip_infix_self (l : PyStr) : strip l <:+: l := by
  unfold strip
  exact List.IsInfix.trans
    ( List.IsPrefix.isInfix (dropTrail_prefix_self isSpaceC (l.dropWhile isSpaceC)))
    ( List.IsSuffix.isInfix (List.dropWhile_suffix isSpaceC))

theorem hasOcc_mono (M : PyStr → Prop) (x y : PyStr) (h : x <:+: y) (ho : HasOcc M x) :
    HasOcc M y := by
  obtain ⟨v, hv, hvx, hM⟩ := ho
  exact ⟨v, hv, hvx.trans h, hM⟩

theorem profilesFrom_no_occ (M : PyStr → Prop) (find : Finder) (L : LeftmostFinder M find) :
    ∀ (n : Nat) (t : PyStr), t.length ≤ n → ∀ (cap : PyStr) (p : PProfile),
      p ∈ profilesFrom find cap t → ¬ HasOcc M p.text := by
  intro n
  induction n with
  | zero =>
    intro t h cap p hp
    cases hf : find t with
    | none =>
      rw [profilesFrom_none find cap t hf, List.mem_singleton] at hp
      subst hp
      intro ho
      exact L.sound_none t hf (hasOcc_mono M _ t (strip_infix_self t) ho)
    | some m =>
      have h1 := m.hpos
      have h2 := m.hle
      omega
  | succ n ih =>
    intro t h cap p hp
    cases hf : find t with
    | none =>
      rw [profilesFrom_none find cap t hf, List.mem_singleton] at hp
      subst hp
      intro ho
      exact L.sound_none t hf (hasOcc_mono M _ t (strip_infix_self t) ho)
    | some m =>
      rw [profilesFrom_some find cap t m hf] at hp
      rcases List.mem_cons.mp hp with h1 | h1
      · subst h1
        intro ho
        exact L.sound_some t m hf (hasOcc_mono M _ _ (strip_infix_self (t.take m.ms)) ho)
      · have hm1 := m.hpos
        have hm2 := m.hle
        exact ih (t.drop (m.ms + m.ml)) (by simp only [List.length_drop]; omega) m.cap p h1

theorem split_no_occ (M : PyStr → Prop) (find : Finder) (L : LeftmostFinder M find)
    (t : PyStr) : ∀ p ∈ split_text_by_player find t, ¬ HasOcc M p.text := by
  intro p hp
  cases hf : find t with
  | none =>
    rw [split_of_none find t hf] at hp
    simp at hp
  | some m =>
    rw [split_profilesFrom find t m hf] at hp
    exact profilesFrom_no_occ M find L (t.drop (m.ms + m.ml)).length _ (Nat.le_refl _) m.cap p hp

/-! ### Claim C3 -/

/-- C3: for every text and every leftmost matcher for the header pattern,
`split_text_by_player` returns exactly as many profiles as there are
non-overlapping matches in the text (zero matches yields the empty list,
not an error); the text before the first match is discarded, the output
being determined by the first captured name and the text after the first
match; and no returned profile body contains an occurrence of the
pattern. -/
theorem C3_split (M : PyStr → Prop) (find : Finder) (t : PyStr)
    (L : LeftmostFinder M find) :
    (split_text_by_player find t).length = countMatches find t ∧
    (find t = none → split_text_by_player find t = []) ∧
    (∀ m : ReMatch t, find t = some m →
      split_text_by_player find t = profilesFrom find m.cap (t.drop (m.ms + m.ml))) ∧
    (∀ p ∈ split_text_by_player find t, ¬ HasOcc M p.text) :=
  ⟨split_count find t, split_of_none find t,
    fun m hm => split_profilesFrom find t m hm, split_no_occ M find L t⟩

theorem findH_leftmost : LeftmostFinder MH findH := by
  constructor
  · intro t m hm
    unfold findH at hm
    split at hm
    · next hidx =>
      rw [Option.some_inj] at hm
      subst hm
      rintro ⟨v, hv, hinf, hM⟩
      rw [MH] at hM
      subst hM
      have hmem : ('H' : Char) ∈ t.take (t.findIdx (fun c => c == 'H')) :=
        hinf.sublist.subset (List.mem_singleton_self _)
      obtain ⟨j, hj, hgj⟩ := List.getElem_of_mem hmem
      have hjlt : j < t.findIdx (fun c => c == 'H') := by
        simp only [List.length_take] at hj
        omega
      have hfalse := List.not_of_lt_findIdx hjlt
      rw [List.getElem_take] at hgj
      rw [hgj] at hfalse
      simp at hfalse
    · exact absurd hm (by simp)
  · intro t hf
    unfold findH at hf
    split at hf
    · exact absurd hf (by simp)
    · next hidx =>
      rintro ⟨v, hv, hinf, hM⟩
      rw [MH] at hM
      subst hM
      have hmem : ('H' : Char) ∈ t := hinf.sublist.subset (List.mem_singleton_self _)
      exact hidx (List.findIdx_lt_length_of_exists ⟨'H', hmem, by simp⟩)

/-- Witness for C3_split with the single-character matcher at "aHbHc". -/
theorem C3_witness :
    (split_text_by_player findH (("aHbHc").toList)).length =
        countMatches findH (("aHbHc").toList) ∧
    (findH (("aHbHc").toList) = none → split_text_by_player findH (("aHbHc").toList) = []) ∧
    (∀ m : ReMatch (("aHbHc").toList), findH (("aHbHc").toList) = some m →
      split_text_by_player findH (("aHbHc").toList) =
        profilesFrom findH m.cap ((("aHbHc").toList).drop (m.ms + m.ml))) ∧
    (∀ p ∈ split_text_by_player findH (("aHbHc").toList), ¬ HasOcc MH p.text) :=
  C3_split MH findH (("aHbHc").toList) findH_leftmost

/-! ### Lemmas about the annotation loop -/

theorem stepP_name (oracle : Oracle) (p : PProfile) (b : Bool) (ci rc : Nat) :
    (stepP oracle p b ci rc).urec.player_name = p.player_name := by
  unfold stepP
  cases oracle ci with
  | success t => rfl
  | rateLimit m =>
    cases oracle (ci + 1) with
    | success t => rfl
    | rateLimit m2 => rfl
    | otherError m2 => rfl
  | otherError m => rfl

theorem stepP_analysis (oracle : Oracle) (p : PProfile) (b : Bool) (ci rc : Nat) :
    ReplyOrError oracle (stepP oracle p b ci rc).urec.analysis := by
  unfold stepP
  cases ho : oracle ci with
  | success t => exact Or.inl ⟨ci, t, ho, rfl⟩
  | rateLimit m =>
    cases h2 : oracle (ci + 1) with
    | success t => exact Or.inl ⟨ci + 1, t, h2, rfl⟩
    | rateLimit m2 => exact Or.inr (Or.inl ⟨m2, rfl⟩)
    | otherError m2 => exact Or.inr (Or.inl ⟨m2, rfl⟩)
  | otherError m => exact Or.inr (Or.inr ⟨m, rfl⟩)

theorem runP_length (oracle : Oracle) :
    ∀ (ps : List PProfile) (ci rc : Nat), (runP oracle ps ci rc).length = ps.length := by
  intro ps
  induction ps with
  | nil =>
    intro ci rc
    rfl
  | cons p rest ih =>
    intro ci rc
    rw [runP]
    simp only [List.length_cons, ih]

theorem runP_names (oracle : Oracle) :
    ∀ (ps : List PProfile) (ci rc : Nat),
      (runP oracle ps ci rc).map (fun r => r.player_name) =
        ps.map (fun p => p.player_name) := by
  intro ps
  induction ps with
  | nil =>
    intro ci rc
    rfl
  | cons p rest ih =>
    intro ci rc
    rw [runP]
    simp only [List.map_cons, stepP_name, ih]

theorem runP_analysis (oracle : Oracle) :
    ∀ (ps : List PProfile) (ci rc : Nat),
      ∀ r ∈ runP oracle ps ci rc, ReplyOrError oracle r.analysis := by
  intro ps
  induction ps with
  | nil =>
    intro ci rc r hr
    simp [runP] at hr
  | cons p rest ih =>
    intro ci rc r hr
    rw [runP] at hr
    rcases List.mem_cons.mp hr with h1 | h1
    · subst h1
      exact stepP_analysis oracle p rest.isEmpty ci rc
    · exact ih _ _ r h1

/-! ### Claim C5 -/

/-- C5: for every oracle of per-call outcomes, `analyze_players_with_gemini`
returns exactly one output record per input profile, in input order (same
length and same player names in order), each with its analysis set either
to a response text of some call or to one of the textual error strings —
no per-unit failure aborts the batch and no unit is dropped. -/
theorem C5_batch (oracle : Oracle) (player_profiles : List PProfile) :
    (analyze_players_with_gemini oracle player_profiles).length = player_profiles.length ∧
    (analyze_players_with_gemini oracle player_profiles).map (fun r => r.player_name) =
      player_profiles.map (fun p => p.player_name) ∧
    ∀ r ∈ analyze_players_with_gemini oracle player_profiles,
      ReplyOrError oracle r.analysis :=
  ⟨runP_length oracle player_profiles 0 0, runP_names oracle player_profiles 0 0,
    runP_analysis oracle player_profiles 0 0⟩

/-! ### Claim C4 -/

/-- C4 (amended): for a unit whose first call is rate-limited and whose
single retry succeeds, the recorded analysis is the retry's response and
exactly one 65-second pause occurs for that unit, in both variants; when
the retry also fails, the profile variant records the textual message
`Error after retry` and the batch continues with every unit still
represented, while the page/table variant records no analysis at all (the
call returns None, so the page is omitted) and the loop continues with the
next page. -/
theorem C4_amended (oracle : Oracle) (ci : Nat) (m : PyStr)
    (hrl : oracle ci = Outcome.rateLimit m) :
    (∀ (p : PProfile) (isLast : Bool) (rc : Nat) (t : PyStr),
      oracle (ci + 1) = Outcome.success t →
      (stepP oracle p isLast ci rc).urec.analysis = t ∧
      (stepP oracle p isLast ci rc).urec.events.count Ev.sleepRL +
        (stepP oracle p isLast ci rc).urec.events.count Ev.sleepPro = 1) ∧
    (∀ (p : PProfile) (rest : List PProfile) (rc ci2 : Nat) (m2 : PyStr),
      (oracle (ci + 1) = Outcome.rateLimit m2 ∨ oracle (ci + 1) = Outcome.otherError m2) →
      (stepP oracle p rest.isEmpty ci rc).urec.analysis = errAfterRetry m2 ∧
      (runP oracle (p :: rest) ci rc).length = rest.length + 1) ∧
    (∀ t : PyStr, oracle (ci + 1) = Outcome.success t →
      (analyze_page_with_gemini oracle ci).res = some t ∧
      (analyze_page_with_gemini oracle ci).evs.count Ev.sleepRL +
        (analyze_page_with_gemini oracle ci).evs.count Ev.sleepPro = 1) ∧
    (∀ m2 : PyStr,
      (oracle (ci + 1) = Outcome.rateLimit m2 ∨ oracle (ci + 1) = Outcome.otherError m2) →
      (analyze_page_with_gemini oracle ci).res = none ∧
      ∀ (J : Type) (loads : PyStr → Option J) (txt : PyStr)
        (rest : List (Option PyStr)) (k : Nat),
        (table_page_loop loads oracle (some txt :: rest) ci k).results =
          (table_page_loop loads oracle rest (ci + 2) (k + 1)).results) := by
  have hpage : ∀ m2 : PyStr,
      (oracle (ci + 1) = Outcome.rateLimit m2 ∨ oracle (ci + 1) = Outcome.otherError m2) →
      analyze_page_with_gemini oracle ci =
        ⟨none, ci + 2, [Ev.callErr, Ev.sleepRL, Ev.callErr]⟩ := by
    intro m2 h2
    unfold analyze_page_with_gemini
    rw [hrl]
    rcases h2 with h2 | h2 <;> rw [h2]
  refine ⟨?_, ?_, ?_, ?_⟩
  · intro p isLast rc t h2
    unfold stepP
    rw [hrl, h2]
    exact ⟨rfl, rfl⟩
  · intro p rest rc ci2 m2 h2
    constructor
    · unfold stepP
      rw [hrl]
      rcases h2 with h2 | h2 <;> rw [h2]
    · rw [runP_length]
      rfl
  · intro t h2
    unfold analyze_page_with_gemini
    rw [hrl, h2]
    exact ⟨rfl, rfl⟩
  · intro m2 h2
    refine ⟨by rw [hpage m2 h2], ?_⟩
    intro J loads txt rest k
    rw [table_page_loop, hpage m2 h2]
    simp

/-- C4 (counterexample): in the page/table variant a rate-limited call
whose retry fails records no analysis — `analyze_page_with_gemini` returns
None rather than a textual error message — and the page is dropped from
the output while the remaining pages are still processed (here the later
page's "ok" response is the only result). -/
theorem C4_counterexample :
    (analyze_page_with_gemini oracleRetryFail 0).res = none ∧
    (table_page_loop (fun s => (some s : Option PyStr)) oracleRetryFail
        [some (("t").toList), some (("u").toList)] 0 1).results = [("ok").toList] := by
  constructor
  · rfl
  · rfl

/-- Witness for C4_amended: a retry success in the profile variant and a
retry failure in the page/table variant. -/
theorem C4_witness :
    ((stepP oracleRetryOk ⟨("p").toList, ("x").toList⟩ false 0 0).urec.analysis =
        ("ok").toList ∧
      (stepP oracleRetryOk ⟨("p").toList, ("x").toList⟩ false 0 0).urec.events.count Ev.sleepRL +
        (stepP oracleRetryOk ⟨("p").toList, ("x").toList⟩ false 0 0).urec.events.count
          Ev.sleepPro = 1) ∧
    ((analyze_page_with_gemini oracleRetryFail 0).res = none ∧
      (table_page_loop jloadsC oracleRetryFail [some (("u").toList)] 0 1).results =
        (table_page_loop jloadsC oracleRetryFail [] 2 2).results) :=
  ⟨(C4_amended oracleRetryOk 0 (("quota").toList) (by decide)).1
      ⟨("p").toList, ("x").toList⟩ false 0 (("ok").toList) (by decide),
    ((C4_amended oracleRetryFail 0 (("quota").toList) (by decide)).2.2.2 (("boom").toList)
        (Or.inr (by decide))).1,
    ((C4_amended oracleRetryFail 0 (("quota").toList) (by decide)).2.2.2 (("boom").toList)
        (Or.inr (by decide))).2 Nat jloadsC (("u").toList) [] 1⟩

/-! ### Lemmas about the pauses -/

theorem analyzePage_sleepPro (oracle : Oracle) (ci : Nat) :
    (analyze_page_with_gemini oracle ci).evs.count Ev.sleepPro = 0 := by
  unfold analyze_page_with_gemini
  cases oracle ci with
  | success t => rfl
  | rateLimit m =>
    cases oracle (ci + 1) with
    | success t => rfl
    | rateLimit m2 => rfl
    | otherError m2 => rfl
  | otherError m => rfl

theorem table_loop_sleepPro (J : Type) (loads : PyStr → Option J) (oracle : Oracle) :
    ∀ (pages : List (Option PyStr)) (ci k : Nat),
      (table_page_loop loads oracle pages ci k).events.count Ev.sleepPro =
        countProPos pages k := by
  intro pages
  induction pages with
  | nil =>
    intro ci k
    rfl
  | cons pg rest ih =>
    intro ci k
    cases pg with
    | none =>
      rw [table_page_loop, countProPos, ih ci (k + 1)]
      simp
    | some txt =>
      rw [table_page_loop, countProPos]
      simp only [List.count_append, analyzePage_sleepPro, ih]
      by_cases hc : k % 14 = 0 ∧ rest ≠ []
      · rw [if_pos hc, if_pos ⟨rfl, hc⟩]
        simp [List.count_cons]
      · rw [if_neg hc, if_neg (fun h => hc h.2)]
        simp

theorem runP_sleepPro_iff (oracle : Oracle) :
    ∀ (ps : List PProfile) (ci rc i : Nat) (r : URec),
      (runP oracle ps ci rc)[i]? = some r →
      (Ev.sleepPro ∈ r.events ↔
        (∃ t, oracle (stBefore oracle ps ci rc i).1 = Outcome.success t) ∧
          ((stBefore oracle ps ci rc i).2 + 1) % 14 = 0 ∧ i + 1 < ps.length) := by
  intro ps
  induction ps with
  | nil =>
    intro ci rc i r hr
    simp [runP] at hr
  | cons p rest ih =>
    intro ci rc i r hr
    cases i with
    | zero =>
      rw [runP, List.getElem?_cons_zero, Option.some_inj] at hr
      subst hr
      have hst : stBefore oracle (p :: rest) ci rc 0 = (ci, rc) := rfl
      rw [hst]
      unfold stepP
      cases ho : oracle ci with
      | success t =>
        dsimp only
        by_cases hcond : ((rc + 1) % 14 = 0 ∧ rest.isEmpty = false)
        · rw [if_pos hcond]
          constructor
          · intro _
            refine ⟨⟨t, rfl⟩, hcond.1, ?_⟩
            have h2 := hcond.2
            cases rest with
            | nil => simp at h2
            | cons b r2 =>
              simp only [List.length_cons]
              omega
          · intro _
            simp
        · rw [if_neg hcond]
          constructor
          · intro hmem
            simp at hmem
          · rintro ⟨_, hmod, hlen⟩
            exfalso
            apply hcond
            refine ⟨hmod, ?_⟩
            cases rest with
            | nil => simp at hlen
            | cons b r2 => rfl
      | rateLimit m =>
        cases h2 : oracle (ci + 1) with
        | success t =>
          dsimp only
          constructor
          · intro hmem
            simp at hmem
          · rintro ⟨⟨t2, hsucc⟩, _, _⟩
            simp at hsucc
        | rateLimit m2 =>
          dsimp only
          constructor
          · intro hmem
            simp at hmem
          · rintro ⟨⟨t2, hsucc⟩, _, _⟩
            simp at hsucc
        | otherError m2 =>
          dsimp only
          constructor
          · intro hmem
            simp at hmem
          · rintro ⟨⟨t2, hsucc⟩, _, _⟩
            simp at hsucc
      | otherError m =>
        dsimp only
        constructor
        · intro hmem
          simp at hmem
        · rintro ⟨⟨t2, hsucc⟩, _, _⟩
          simp at hsucc
    | succ i =>
      rw [runP, List.getElem?_cons_succ] at hr
      have hrec := ih (stepP oracle p rest.isEmpty ci rc).ci
        (stepP oracle p rest.isEmpty ci rc).rc i r hr
      have hst : stBefore oracle (p :: rest) ci rc (i + 1) =
          stBefore oracle rest (stepP oracle p rest.isEmpty ci rc).ci
            (stepP oracle p rest.isEmpty ci rc).rc i := rfl
      have hlen : (i + 1 + 1 < (p :: rest).length) ↔ (i + 1 < rest.length) := by
        simp only [List.length_cons]
        omega
      rw [hst, hlen]
      exact hrec

/-! ### Claim C7 -/

/-- C7 (counterexample): in the page/table variant the pause is keyed to
page position, not to successfully attempted API calls: with the first of
15 pages lacking content (skipped by `continue`) and every call
succeeding, a pause still fires after the 14th position, at which point
only 13 API calls have been attempted — and 13 is not a multiple of 14. -/
theorem C7_counterexample :
    (table_page_loop (fun s => (some s : Option PyStr)) oracleOk
        ((none : Option PyStr) :: List.replicate 14 (some (("p").toList))) 0 1).events =
      List.replicate 13 Ev.callOk ++ [Ev.sleepPro, Ev.callOk] ∧
    (List.replicate 13 Ev.callOk).count Ev.callOk % 14 ≠ 0 := by
  constructor
  · decide
  · decide

/-- C7 (amended): in the profile variant a proactive 65-second pause
occurs during unit `i` exactly when the unit's first-attempt call
succeeds, the incremented `request_count` is a multiple of 14, and the
unit is not the last — error units and retry successes do not advance the
counter; in the page/table variant the number of proactive pauses is
independent of the API outcomes: pauses fire exactly after content pages
whose 1-based position from the start page is a multiple of 14 that are
not the last page, with skipped and failed pages still advancing the
position counter. -/
theorem C7_amended :
    (∀ (oracle : Oracle) (ps : List PProfile) (ci rc i : Nat) (r : URec),
      (runP oracle ps ci rc)[i]? = some r →
      (Ev.sleepPro ∈ r.events ↔
        (∃ t, oracle (stBefore oracle ps ci rc i).1 = Outcome.success t) ∧
          ((stBefore oracle ps ci rc i).2 + 1) % 14 = 0 ∧ i + 1 < ps.length)) ∧
    (∀ (J : Type) (loads : PyStr → Option J) (oracle : Oracle)
      (pages : List (Option PyStr)) (ci k : Nat),
      (table_page_loop loads oracle pages ci k).events.count Ev.sleepPro =
        countProPos pages k) :=
  ⟨fun oracle ps ci rc i r hr => runP_sleepPro_iff oracle ps ci rc i r hr,
    fun J loads oracle pages ci k => table_loop_sleepPro J loads oracle pages ci k⟩

/-- Witness for C7_amended at a two-profile batch with an all-success
oracle, unit 0. -/
theorem C7_witness :
    Ev.sleepPro ∈
        (⟨("a").toList, ("x").toList, ("ok").toList, [Ev.callOk]⟩ : URec).events ↔
      (∃ t, oracleOk (stBefore oracleOk
            [⟨("a").toList, ("x").toList⟩, ⟨("b").toList, ("y").toList⟩] 0 0 0).1 =
          Outcome.success t) ∧
        ((stBefore oracleOk [⟨("a").toList, ("x").toList⟩, ⟨("b").toList, ("y").toList⟩]
              0 0 0).2 + 1) % 14 = 0 ∧
        0 + 1 < ([⟨("a").toList, ("x").toList⟩, ⟨("b").toList, ("y").toList⟩] :
          List PProfile).length :=
  C7_amended.1 oracleOk [⟨("a").toList, ("x").toList⟩, ⟨("b").toList, ("y").toList⟩] 0 0 0
    ⟨("a").toList, ("x").toList, ("ok").toList, [Ev.callOk]⟩ (by decide)

/-! ### Lemmas about fence stripping -/

theorem strip_cons_space (c : Char) (l : PyStr) (hc : isSpaceC c = true) :
    strip (c :: l) = strip l := by
  unfold strip
  rw [List.dropWhile_cons, if_pos hc]

theorem dropTrail_snoc (p : Char → Bool) (c : Char) (l : PyStr) (hc : p c = true) :
    dropTrail p (l ++ [c]) = dropTrail p l := by
  unfold dropTrail
  rw [List.reverse_append]
  simp only [List.reverse_cons, List.reverse_nil, List.nil_append, List.singleton_append]
  rw [List.dropWhile_cons, if_pos hc]

theorem strip_snoc_space (c : Char) (l : PyStr) (hc : isSpaceC c = true) :
    strip (l ++ [c]) = strip l := by
  unfold strip
  rw [List.dropWhile_append]
  by_cases h : (l.dropWhile isSpaceC).isEmpty
  · rw [if_pos h]
    have h1 : List.dropWhile isSpaceC [c] = [] := by
      rw [List.dropWhile_cons, if_pos hc]
      rfl
    have h2 : l.dropWhile isSpaceC = [] := by
      rwa [List.isEmpty_iff] at h
    rw [h1, h2]
  · rw [if_neg h]
    exact dropTrail_snoc isSpaceC c (l.dropWhile isSpaceC) hc

theorem cleanFence_fencedJson (j : PyStr) : cleanFence (fencedJson j) = strip j := by
  have hassoc : fencedJson j =
      ("```json").toList ++ (('\n' : Char) :: (j ++ ("\n```").toList)) := by
    unfold fencedJson
    rw [show ("```json\n").toList = ("```json").toList ++ [('\n' : Char)] from by decide]
    simp [List.append_assoc]
  have hstripid : strip (fencedJson j) = fencedJson j := by
    apply strip_eq_self
    · intro c hc
      rw [hassoc,
        show ("```json").toList = Char.ofNat 96 :: ("``json").toList from by decide,
        List.cons_append, List.head?_cons, Option.some_inj] at hc
      subst hc
      decide
    · intro c hc
      unfold fencedJson at hc
      rw [List.getLast?_append,
        show (("\n```").toList).getLast? = some (Char.ofNat 96) from by decide,
        Option.or_some, Option.some_inj] at hc
      subst hc
      decide
  have hpre : (("```json").toList).isPrefixOf (fencedJson j) = true := by
    rw [ List.isPrefixOf_iff_prefix, hassoc]
    exact ⟨_, rfl⟩
  unfold cleanFence
  rw [hstripid, if_pos hpre, hassoc,
    List.drop_left' (by decide : (("```json").toList).length = 7)]
  have hlen : (("```json").toList ++ (('\n' : Char) :: (j ++ ("\n```").toList))).length - 7 - 3 =
      j.length + 2 := by
    simp only [List.length_append, List.length_cons]
    have h4 : (("```json").toList).length = 7 := by decide
    have h5 : (("\n```").toList).length = 4 := by decide
    omega
  rw [hlen, show j.length + 2 = (j.length + 1) + 1 from rfl, List.take_succ_cons,
    List.take_append, show (("\n```").toList).take 1 = [('\n' : Char)] from by decide,
    strip_cons_space _ _ (by decide), strip_snoc_space _ _ (by decide)]

/-! ### Claim C8 -/

/-- C8: for any JSON parser that ignores surrounding whitespace, parsing a
response wrapped in a leading/trailing markdown code fence through
`clean_and_parse_json` equals parsing the payload directly; and a page
whose response fails to decode is omitted from the output list while the
remaining pages are still processed. -/
theorem C8_fence (J : Type) (loads : PyStr → Option J)
    (hstrip : ∀ x, loads (strip x) = loads x) :
    (∀ j : PyStr, clean_and_parse_json loads (fencedJson j) = loads j) ∧
    (∀ (oracle : Oracle) (ci k : Nat) (txt s : PyStr) (rest : List (Option PyStr)),
      (analyze_page_with_gemini oracle ci).res = some s →
      loads (cleanFence s) = none →
      (table_page_loop loads oracle (some txt :: rest) ci k).results =
        (table_page_loop loads oracle rest (analyze_page_with_gemini oracle ci).ci
          (k + 1)).results) := by
  constructor
  · intro j
    unfold clean_and_parse_json
    rw [cleanFence_fencedJson j, hstrip j]
  · intro oracle ci k txt s rest hres hparse
    rw [table_page_loop]
    simp only [hres, clean_and_parse_json, hparse, List.nil_append]

theorem jloadsC_strip : ∀ x, jloadsC (strip x) = jloadsC x := by
  intro x
  unfold jloadsC
  rw [strip_strip]

/-- Witness for C8_fence with the concrete parser `jloadsC`: the fenced
"ok" payload parses like the bare payload, and a page whose response
"bad" fails to parse is omitted while the loop continues. -/
theorem C8_witness :
    clean_and_parse_json jloadsC (fencedJson (("ok").toList)) = jloadsC (("ok").toList) ∧
    (table_page_loop jloadsC oracleBad [some (("t").toList)] 0 1).results =
      (table_page_loop jloadsC oracleBad [] (analyze_page_with_gemini oracleBad 0).ci
        2).results :=
  ⟨(C8_fence Nat jloadsC jloadsC_strip).1 (("ok").toList),
    (C8_fence Nat jloadsC jloadsC_strip).2 oracleBad 0 1 (("t").toList) (("bad").toList) []
      (by decide) (by decide)⟩

